import Mathlib

/-!
Shallow embedding of the discrete local-minimum search engine of
`src/estimator/util.py` (`local_minimum`, `binary_search`,
`binary_search_robust`, `batch_estimate`) together with proofs about it.

Conventions of the embedding:
* Python integers are `Int`.
* a cost-function result is `Option α`: `some v` is a feasible result,
  `none` models the Python sentinel `False` ("Infeasible"); the
  comparator `smallerf` receives the stored best result (which may be
  the sentinel) as its second argument, mirroring
  `self._smallerf(res, self._best[1])`.
* `ceil((a+b)/2)` / `floor((a+b)/2)` on exact (Sage) integers are
  `ceilHalf` / `floorHalf` via Euclidean division.
* the visited set `_all_x` is a `List Int`; `update` is only ever called
  by the drivers after a successful `next`, so `_last_x` is a real
  integer whenever it is added.
-/

/-- `ceil(n / 2)` on integers, as computed by Sage's `ceil` on the exact
rational `(a+b)/2`. -/
def ceilHalf (n : Int) : Int := Int.ediv (n + 1) 2

/-- `floor(n / 2)` on integers, as computed by Sage's `floor` on the exact
rational `(a+b)/2`. -/
def floorHalf (n : Int) : Int := Int.ediv n 2

/-- The mutable state of `local_minimum` (util.py lines 19-56):
fields `_test_step_size`, `_start`, `_stop`, `_initial_bounds`,
`_smallerf`, `_direction`, `_last_x`, `_next_x`, `_best`, `_all_x`. -/
structure LocalMinimum (α : Type) where
  testStepSize : Int
  start : Int
  stop : Int
  initialBounds : Int × Int
  smallerf : α → Option α → Bool
  direction : Int
  lastX : Option Int
  nextX : Option Int
  best : Option (Int × Option α)
  allX : List Int

namespace LocalMinimum

/-- The freshly initialised state (body of `local_minimum.__init__`,
util.py lines 42-55): `_stop = stop - 1`,
`_initial_bounds = (start, stop - 1)`, `_direction = -1`,
`_next_x = stop - 1`, `_best = (None, None)`, `_all_x = set()`. -/
def initState (start stop : Int) (smallerf : α → Option α → Bool)
    (testStepSize : Int) : LocalMinimum α :=
  { testStepSize := testStepSize
    start := start
    stop := stop - 1
    initialBounds := (start, stop - 1)
    smallerf := smallerf
    direction := -1
    lastX := none
    nextX := some (stop - 1)
    best := none
    allX := [] }

/-- `local_minimum.__init__` (util.py lines 19-55): raises `ValueError`
iff `stop < start`, otherwise returns the fresh state. -/
def init (start stop : Int) (smallerf : α → Option α → Bool)
    (testStepSize : Int) : Except String (LocalMinimum α) :=
  if stop < start then
    .error "Incorrect bounds"
  else
    .ok (initState start stop smallerf testStepSize)

/-- `local_minimum.__next__` (util.py lines 69-91): abort (StopIteration,
returning `none`) if `_next_x` is `None`, already visited, or out of the
initial bounds; otherwise emit `_next_x`, remember it in `_last_x` and
clear `_next_x`. -/
def next (s : LocalMinimum α) : Option Int × LocalMinimum α :=
  match s.nextX with
  | none => (none, s)
  | some x =>
    if x ∈ s.allX ∨ x < s.initialBounds.1 ∨ s.initialBounds.2 < x then
      (none, s)
    else
      (some x, { s with lastX := some x, nextX := none })

/-- `local_minimum.update` (util.py lines 101-161).  `res = none` models
reporting the Infeasible sentinel `False`.  When `_last_x` is `None`
(update called before any candidate was produced, which the drivers never
do) the Python code would crash on `None` arithmetic; we return the state
unchanged. -/
def update (s0 : LocalMinimum α) (res : Option α) : LocalMinimum α :=
  match s0.lastX with
  | none => s0
  | some lx =>
    -- self._all_x.add(self._last_x)
    let s1 := { s0 with allX := lx :: s0.allX }
    -- if self._best[0] is None: self._best = self._last_x, res
    let s2 := if s1.best.isNone then { s1 with best := some (lx, res) } else s1
    let bestv : Option α := match s2.best with
      | some (_, v) => v
      | none => none
    -- if res is not False and self._smallerf(res, self._best[1]):
    let s3 :=
      if (match res with | some r => s2.smallerf r bestv | none => false) then
        let sb := { s2 with best := some (lx, res) }
        if sb.direction.natAbs ≠ 1 then
          { sb with direction := -1, nextX := some (lx - sb.testStepSize) }
        else if sb.direction = -1 then
          { sb with direction := -2, stop := lx,
                    nextX := some (ceilHalf (sb.start + lx)) }
        else
          { sb with direction := 2, start := lx,
                    nextX := some (floorHalf (lx + sb.stop)) }
      else
        if s2.direction = -1 then
          { s2 with direction := 1, nextX := some (lx + 2 * s2.testStepSize) }
        else if s2.direction = 1 then
          { s2 with nextX := none }
        else if s2.direction = -2 then
          { s2 with start := lx, nextX := some (ceilHalf (lx + s2.stop)) }
        else if s2.direction = 2 then
          { s2 with stop := lx, nextX := some (floorHalf (s2.start + lx)) }
        else s2
    -- if self._next_x == self._last_x: self._next_x = None
    if s3.nextX = some lx then { s3 with nextX := none } else s3

/-- property `x` (util.py lines 93-95): the best candidate so far. -/
def x (s : LocalMinimum α) : Option Int := s.best.map Prod.fst

/-- property `y` (util.py lines 97-99): the best result so far. -/
def y (s : LocalMinimum α) : Option (Option α) := s.best.map Prod.snd

end LocalMinimum

/-- The produce/consume loop `for x in it: it.update(f(x))` driven by a
cost function `f`, with explicit fuel; returns the list of produced
candidates (in order) and the final state. -/
def runLoop (f : Int → Option α) : Nat → LocalMinimum α →
    List Int × LocalMinimum α
  | 0, s => ([], s)
  | fuel + 1, s =>
    match s.next with
    | (none, s') => ([], s')
    | (some x, s') =>
      let r := runLoop f fuel (s'.update (f x))
      (x :: r.1, r.2)

/-- The produce/consume loop where the reported results are an arbitrary
sequence `resp` indexed by the step counter (used for claims quantifying
over "any sequence of reported results"). -/
def runSeq (resp : Nat → Option α) : Nat → Nat → LocalMinimum α →
    List Int × LocalMinimum α
  | _, 0, s => ([], s)
  | i, fuel + 1, s =>
    match s.next with
    | (none, s') => ([], s')
    | (some x, s') =>
      let r := runSeq resp (i + 1) fuel (s'.update (resp i))
      (x :: r.1, r.2)

/-- The default comparator `lambda x, best: x <= best` of
`binary_search`/`local_minimum`, on integer-valued results.  The stored
best is `some b` whenever it is a feasible result; against the sentinel
(`none`, Python `False`) the Python expression `x <= False` treats
`False` as `0`. -/
def defaultSmallerf (r : Int) (best : Option Int) : Bool :=
  match best with
  | some b => r ≤ b
  | none => r ≤ 0

/-- `binary_search` (util.py lines 164-181): drive
`local_minimum(start, stop + 1)` to exhaustion with `f` and return the
best result `it.y`; also expose the candidate trace.  The fuel
`(stop + 2 - start).toNat` strictly exceeds the number of integers in
`[start, stop]`, which bounds the number of produced candidates. -/
def binary_searchRun (f : Int → Option Int) (start stop : Int) :
    Option (List Int × LocalMinimum Int) :=
  match LocalMinimum.init start (stop + 1) defaultSmallerf 1 with
  | .error _ => none
  | .ok s => some (runLoop f ((stop + 2 - start).toNat) s)

/-- The return value of `binary_search` (util.py line 181): `it.y`. -/
def binary_search (f : Int → Option Int) (start stop : Int) :
    Option (Option (Option Int)) :=
  (binary_searchRun f start stop).map (fun r => r.2.y)

/-- Modelled from the spec: the repository's `Cost` result class
(`estimator/cost.py` is not under `src/`).  Per the spec, a result only
has to be orderable by the comparator through its primary scalar field,
so `Cost(rop=r)` is modelled by its `rop` value. -/
def CostRop (rop : Int) : Int := rop

/-- `ceil(a / b)` for a positive divisor, as Sage computes it on the exact
rational `a / b`. -/
def ceilDiv (a b : Int) : Int := -(Int.ediv (-a) b)

/-- `floor(a / b)` for a positive divisor, as Sage computes it on the
exact rational `a / b`. -/
def floorDiv (a b : Int) : Int := Int.ediv a b

/-- `round(n / 2)`: nearest integer, halves rounded away from zero (the
rounding Sage applies to the exact rational `(stop - start) / 2` in
`binary_search_robust`). -/
def roundHalf (n : Int) : Int :=
  if 0 ≤ n then Int.ediv (n + 1) 2 else -(Int.ediv (1 - n) 2)

/-- `binary_search_robust` (util.py lines 184-226) for a total
integer-valued cost function, instrumented to also return the list of
arguments `f` is evaluated at (in evaluation order).  Returns `none`
where the Python code would raise: bad bounds at construction, `it.x`
still `None` after phase 1, or `min([])`. -/
def binary_search_robustRun (f : Int → Int) (start stop step : Int) :
    Option (List Int × Int) :=
  match LocalMinimum.init (ceilDiv start step) (floorDiv stop step)
      defaultSmallerf 1 with
  | .error _ => none
  | .ok s =>
    let phase1 :=
      if step < stop - start then
        let r := runLoop (fun x => some (f (step * x)))
          ((floorDiv stop step + 1 - ceilDiv start step).toNat) s
        match r.2.best with
        | some (bx, some yv) => some (r.1.map (fun x => step * x), step * bx, yv)
        | _ => none
      else
        some ([roundHalf (stop - start)], roundHalf (stop - start),
              f (roundHalf (stop - start)))
    match phase1 with
    | none => none
    | some (evals, p, y) =>
      let lower := max start (p - step)
      let upper := min stop (p + step)
      if upper ≤ lower then
        some (evals, y)
      else
        let pts := (List.range (upper - lower).toNat).map
          (fun i => lower + (i : Int))
        let cst := pts.map f
        match cst with
        | [] => none
        | c :: cs => some (evals ++ pts, cs.foldl min c)

/-- Python's `dict` assignment `d[k] = v` on an insertion-ordered
association list: an existing key keeps its position and gets the new
value, a new key is appended. -/
def dictInsert [DecidableEq K] (k : K) (v : V) :
    List (K × V) → List (K × V)
  | [] => [(k, v)]
  | (k', v') :: d =>
    if k' = k then (k, v) :: d else (k', v') :: dictInsert k v d

/-- Python's `d.get(k, dflt)`. -/
def dictGet [DecidableEq K] (k : K) (dflt : V) : List (K × V) → V
  | [] => dflt
  | (k', v') :: d => if k' = k then v' else dictGet k dflt d

/-- `batch_estimate` (util.py lines 246-277).  `params` is the already
iterable parameter list; `algorithm` is the list of cost functions,
each given with its identity string `f_name(f)` (the `__name__`/`repr`
introspection of util.py lines 239-243) and with the fixed keyword
arguments already bound (`partial(f, **kwds)`).  The worker pool's
`starmap` (jobs != 1 branch) is modelled by its documented semantics:
the result list is in task order, one result per task, each the plain
application of the task's function (cost functions are deterministic
and side-effect free per the spec's concurrency model; `Logging` calls
in `_batch_estimatef` only log).  The return value is the two-level
insertion-ordered table `parameter -> function identity -> result`. -/
def batch_estimate [DecidableEq P] (params : List P)
    (algorithm : List (String × (P → R))) (jobs : Nat) :
    List (P × List (String × R)) :=
  let tasks := params.flatMap (fun x =>
    algorithm.map (fun fa => (fa.2, x, fa.1)))
  let res : List ((String × P) × R) :=
    if jobs = 1 then
      tasks.foldl (fun d t => dictInsert (t.2.2, t.2.1) (t.1 t.2.1) d) []
    else
      let ys := tasks.map (fun t => t.1 t.2.1)
      (tasks.zip ys).foldl
        (fun d ty => dictInsert (ty.1.2.2, ty.1.2.1) ty.2 d) []
  res.foldl (fun ret kv =>
    dictInsert kv.1.2 (dictInsert kv.1.1 kv.2 (dictGet kv.1.2 [] ret)) ret) []

/-- The hypothesis notion of the optimality claim, from the spec's words:
`f` is strictly unimodal over `[start, stop)` — strictly decreasing up
to a minimiser `m` in the interval and strictly increasing from `m` on. -/
def StrictlyUnimodalOn (f : Int → Int) (start stop : Int) : Prop :=
  ∃ m, start ≤ m ∧ m < stop ∧
    (∀ x y, start ≤ x → x < y → y ≤ m → f y < f x) ∧
    (∀ x y, m ≤ x → x < y → y < stop → f x < f y)

/-- The regression cost function of the `update` docstring (util.py
line 110): `Cost(rop=1)` for `x >= 19`, else `Cost(rop=2)`. -/
def stepCost : Int → Option Int :=
  fun x => some (CostRop (if 19 ≤ x then 1 else 2))

/-- The cost function `f(x) = |x - 7|`, strictly unimodal on `[0, 20)`,
used to exercise the probe-down-improvement transition. -/
def vShapedCost : Int → Option Int :=
  fun x => some ((x - 7).natAbs : Int)

/-! ## Structural lemmas about `next` and `update` -/

namespace LocalMinimum

theorem next_some_spec {α : Type} {s s' : LocalMinimum α} {x : Int}
    (h : s.next = (some x, s')) :
    x ∉ s.allX ∧ s.initialBounds.1 ≤ x ∧ x ≤ s.initialBounds.2 ∧
      s' = { s with lastX := some x, nextX := none } := by
  unfold next at h
  cases hn : s.nextX with
  | none => rw [hn] at h; simp at h
  | some z =>
    rw [hn] at h
    dsimp only at h
    split_ifs at h with hc
    · simp at h
    · push_neg at hc
      obtain ⟨h1, h2⟩ := Prod.mk.injEq .. ▸ h
      cases h1
      exact ⟨hc.1, by omega, by omega, h2.symm⟩

theorem update_allX {α : Type} {s : LocalMinimum α} {lx : Int} (r : Option α)
    (h : s.lastX = some lx) : (s.update r).allX = lx :: s.allX := by
  unfold update
  rw [h]
  dsimp only
  split_ifs <;> rfl

theorem update_initialBounds {α : Type} (s : LocalMinimum α) (r : Option α) :
    (s.update r).initialBounds = s.initialBounds := by
  unfold update
  cases s.lastX
  · rfl
  · dsimp only
    split_ifs <;> rfl

theorem update_smallerf {α : Type} (s : LocalMinimum α) (r : Option α) :
    (s.update r).smallerf = s.smallerf := by
  unfold update
  cases s.lastX
  · rfl
  · dsimp only
    split_ifs <;> rfl

theorem update_best_of_none {α : Type} {s : LocalMinimum α} {lx : Int}
    (r : Option α) (h : s.lastX = some lx) (hb : s.best = none) :
    (s.update r).best = some (lx, r) := by
  unfold update
  rw [h]
  dsimp only
  rw [hb]
  simp only [Option.isNone_none, if_true]
  split_ifs <;> rfl

theorem update_best_of_some {α : Type} {s : LocalMinimum α} {lx bx : Int}
    {bv : Option α} (r : Option α) (h : s.lastX = some lx)
    (hb : s.best = some (bx, bv)) :
    (s.update r).best =
      if (match r with | some rr => s.smallerf rr bv | none => false) = true
      then some (lx, r) else some (bx, bv) := by
  unfold update
  rw [h]
  dsimp only
  rw [hb]
  simp only [Option.isNone_some, Bool.false_eq_true, if_false]
  split_ifs <;> rfl

end LocalMinimum

/-! ## Claim theorems: construction and concrete runs -/

/-- C8: constructing `local_minimum` raises the `ValueError` iff
`stop < start`; every construction with `start ≤ stop` succeeds and
returns the fresh search state. -/
theorem init_fails_iff_bounds {α : Type} (start stop : Int)
    (smallerf : α → Option α → Bool) (ts : Int) :
    (LocalMinimum.init start stop smallerf ts = .error "Incorrect bounds"
        ↔ stop < start)
    ∧ (LocalMinimum.init start stop smallerf ts
        = .ok (LocalMinimum.initState start stop smallerf ts)
        ↔ start ≤ stop) := by
  unfold LocalMinimum.init
  by_cases h : stop < start
  · rw [if_pos h]
    constructor
    · constructor
      · intro _; exact h
      · intro _; rfl
    · constructor
      · intro hc; exact absurd hc (by simp)
      · intro hle; exact absurd h (by omega)
  · rw [if_neg h]
    constructor
    · constructor
      · intro hc; exact absurd hc (by simp)
      · intro hlt; exact absurd hlt h
    · constructor
      · intro _; omega
      · intro _; rfl

/-- C2: the regression case of the `update` docstring — with
`f(x) = Cost(rop=1) if x >= 19 else Cost(rop=2)`,
`binary_search(f, 10, 30, "x")` terminates (despite the flat plateau)
and returns the result with `rop = 1`. -/
theorem binary_search_step_regression :
    binary_search stepCost 10 30 = some (some (some (CostRop 1))) := by
  rfl

/-- C5: on a degenerate range (`stop - start ≤ step`) the code does skip
phase 1 and evaluate `f` at exactly one point — but that point is
`round((stop - start) / 2)`, the midpoint of the *span counted from 0*,
not the midpoint of `[start, stop)`: at `start = 100`, `stop = 102`,
`step = 5` the single evaluated point is `1`, which lies outside
`[100, 102)` and differs from the midpoint `101`; the phase-2 window
around it is then empty and no scan happens. -/
theorem binary_search_robust_degenerate_offset (f : Int → Int) :
    binary_search_robustRun f 100 102 5 = some ([1], f 1)
    ∧ (1 : Int) < 100 ∧ (1 : Int) ≠ 101 := by
  refine ⟨rfl, by decide, by decide⟩

/-- C3 counterexample: reporting the Infeasible sentinel (`False`) as the
very first result does store it as the best-so-far pair: starting from
`local_minimum(0, 5)`, the first produced candidate is `4`, and after
`update(False)` the best-so-far is `(4, False)`, not the unchanged
`(None, None)`. -/
theorem infeasible_first_becomes_best :
    LocalMinimum.init 0 5 defaultSmallerf 1
        = .ok (LocalMinimum.initState 0 5 defaultSmallerf 1)
    ∧ (LocalMinimum.initState 0 5 defaultSmallerf 1).best = none
    ∧ ((LocalMinimum.initState 0 5 defaultSmallerf 1).next).1 = some 4
    ∧ (((LocalMinimum.initState 0 5 defaultSmallerf 1).next).2.update none).best
        = some (4, none)
    ∧ some ((4 : Int), (none : Option Int)) ≠ (none : Option (Int × Option Int)) := by
  refine ⟨rfl, rfl, rfl, rfl, by decide⟩

/-- C3 amended: an Infeasible result never wins the comparison — whenever
a best-so-far pair is already stored, reporting the sentinel leaves the
stored best-so-far pair unchanged.  (Only the very first reported result
is stored unconditionally, sentinel included.) -/
theorem update_infeasible_keeps_best {α : Type} (s : LocalMinimum α)
    (h : s.best.isSome = true) : (s.update none).best = s.best := by
  cases hl : s.lastX with
  | none =>
    unfold LocalMinimum.update
    rw [hl]
  | some lx =>
    obtain ⟨⟨bx, bv⟩, hb⟩ := Option.isSome_iff_exists.mp h
    rw [LocalMinimum.update_best_of_some none hl hb, hb]
    simp

/-- Witness for the amended C3 theorem at a concrete search state. -/
theorem update_infeasible_keeps_best_witness :
    (LocalMinimum.update
        ⟨1, 0, 4, (0, 4), defaultSmallerf, -1, some 3, none,
         some (3, some 7), [3]⟩ none).best = some (3, some 7) :=
  update_infeasible_keeps_best _ rfl

/-- C4 counterexample: on `f(x) = |x - 7|` over `[0, 20)` the third
candidate `9` is evaluated while the search is unit-step probing
downward (direction `-1`, best `(10, |10-7|) = (10, 3)`), and the
reported result `2` improves the best — yet the next produced candidate
is the bisection midpoint `5`, not one more unit step `8`, and the
direction switches to bisection (`-2`) after this *first* unit-step
improvement. -/
theorem probe_down_improvement_bisects_immediately :
    (runLoop vShapedCost 2 (LocalMinimum.initState 0 20 defaultSmallerf 1)).2.direction
        = -1
    ∧ (runLoop vShapedCost 2 (LocalMinimum.initState 0 20 defaultSmallerf 1)).2.nextX
        = some 9
    ∧ (runLoop vShapedCost 2 (LocalMinimum.initState 0 20 defaultSmallerf 1)).2.best
        = some (10, some 3)
    ∧ vShapedCost 9 = some 2
    ∧ defaultSmallerf 2 (some 3) = true
    ∧ (runLoop vShapedCost 3 (LocalMinimum.initState 0 20 defaultSmallerf 1)).1
        = [19, 10, 9]
    ∧ (runLoop vShapedCost 3 (LocalMinimum.initState 0 20 defaultSmallerf 1)).2.direction
        = -2
    ∧ (runLoop vShapedCost 3 (LocalMinimum.initState 0 20 defaultSmallerf 1)).2.nextX
        = some 5
    ∧ (5 : Int) ≠ 9 - 1 := by
  refine ⟨rfl, rfl, rfl, rfl, rfl, rfl, rfl, rfl, by decide⟩

/-- C4 amended: when the search is unit-step probing (direction `-1` or
`1`) and the reported feasible result improves the stored best, the code
switches to bisection mode *immediately after this first unit-step
improvement*: probing down it sets direction `-2`, moves `stop` to the
candidate and proposes `ceil((start + candidate)/2)` (or stops if that
equals the candidate); symmetrically probing up it sets direction `2`,
moves `start` to the candidate and proposes
`floor((candidate + stop)/2)`. -/
theorem update_unit_probe_improvement {α : Type} (s : LocalMinimum α)
    (lx bx : Int) (bv : Option α) (rr : α) (hl : s.lastX = some lx)
    (hb : s.best = some (bx, bv)) (himp : s.smallerf rr bv = true) :
    (s.direction = -1 →
      (s.update (some rr)).direction = -2 ∧
      (s.update (some rr)).stop = lx ∧
      (s.update (some rr)).best = some (lx, some rr) ∧
      (s.update (some rr)).nextX =
        (if ceilHalf (s.start + lx) = lx then none
         else some (ceilHalf (s.start + lx))))
    ∧ (s.direction = 1 →
      (s.update (some rr)).direction = 2 ∧
      (s.update (some rr)).start = lx ∧
      (s.update (some rr)).best = some (lx, some rr) ∧
      (s.update (some rr)).nextX =
        (if floorHalf (lx + s.stop) = lx then none
         else some (floorHalf (lx + s.stop)))) := by
  unfold LocalMinimum.update
  rw [hl]
  dsimp only
  rw [hb]
  simp only [Option.isNone_some, Bool.false_eq_true, if_false, himp, if_true]
  constructor
  · intro hdir
    rw [hdir]
    norm_num
    by_cases hce : ceilHalf (s.start + lx) = lx
    · rw [if_pos hce]
      simp [hce]
    · rw [if_neg hce]
      simp [hce]
  · intro hdir
    rw [hdir]
    norm_num
    by_cases hce : floorHalf (lx + s.stop) = lx
    · rw [if_pos hce]
      simp [hce]
    · rw [if_neg hce]
      simp [hce]

/-- Witness for the amended C4 theorem at a concrete probing-down state. -/
theorem update_unit_probe_improvement_witness :
    (LocalMinimum.update
        ⟨1, 0, 19, (0, 19), defaultSmallerf, -1, some 9, none,
         some (10, some 3), [10, 19]⟩ (some 2)).direction = -2 :=
  ((update_unit_probe_improvement _ 9 10 (some 3) 2 rfl rfl rfl).1 rfl).1

/-- On abort, `__next__` leaves the state unchanged. -/
theorem LocalMinimum.next_none_spec {α : Type} {s s' : LocalMinimum α}
    (h : s.next = (none, s')) : s' = s := by
  unfold LocalMinimum.next at h
  cases hn : s.nextX with
  | none =>
    rw [hn] at h
    exact (congrArg Prod.snd h).symm
  | some z =>
    rw [hn] at h
    dsimp only at h
    split_ifs at h with hc
    · exact (congrArg Prod.snd h).symm
    · simp at h

/-- C10: `binary_search(f, start, stop, param)` searches `[start, stop]`
inclusively: it constructs `local_minimum(start, stop + 1)` and the
first candidate it evaluates is `stop` itself. -/
theorem binary_search_first_candidate (f : Int → Option Int)
    (start stop : Int) (h : start ≤ stop) :
    binary_searchRun f start stop
      = some (runLoop f ((stop + 2 - start).toNat)
          (LocalMinimum.initState start (stop + 1) defaultSmallerf 1))
    ∧ ((runLoop f ((stop + 2 - start).toNat)
          (LocalMinimum.initState start (stop + 1) defaultSmallerf 1)).1).head?
        = some stop := by
  have h2 : ¬ (stop + 1 < start) := by omega
  constructor
  · unfold binary_searchRun LocalMinimum.init
    rw [if_neg h2]
  · obtain ⟨k, hk⟩ : ∃ k, (stop + 2 - start).toNat = k + 1 :=
      ⟨(stop + 1 - start).toNat, by omega⟩
    rw [hk]
    have hnext : (LocalMinimum.initState start (stop + 1) defaultSmallerf 1).next
        = (some (stop + 1 - 1),
           { LocalMinimum.initState start (stop + 1) defaultSmallerf 1 with
             lastX := some (stop + 1 - 1), nextX := none }) := by
      unfold LocalMinimum.next LocalMinimum.initState
      dsimp only
      rw [if_neg (by simp; omega)]
    simp only [runLoop, hnext]
    simp only [List.head?_cons, Option.some.injEq]
    omega

/-- Witness for the C10 theorem at `start = 3`, `stop = 5`. -/
theorem binary_search_first_candidate_witness :
    binary_searchRun (fun _ => some 0) 3 5
      = some (runLoop (fun _ => some 0) (((5 : Int) + 2 - 3).toNat)
          (LocalMinimum.initState 3 (5 + 1) defaultSmallerf 1))
    ∧ ((runLoop (fun _ => some 0) (((5 : Int) + 2 - 3).toNat)
          (LocalMinimum.initState 3 (5 + 1) defaultSmallerf 1)).1).head?
        = some 5 :=
  binary_search_first_candidate (fun _ => some 0) 3 5 (by decide)

/-- Every candidate produced along a run is fresh (not yet visited when
produced) and lies within the original bounds, and the produced sequence
has no duplicates — for an arbitrary sequence of reported results. -/
theorem runSeq_trace_fresh {α : Type} (resp : Nat → Option α) :
    ∀ (fuel i : Nat) (s : LocalMinimum α),
      (∀ a ∈ (runSeq resp i fuel s).1,
        a ∉ s.allX ∧ s.initialBounds.1 ≤ a ∧ a ≤ s.initialBounds.2)
      ∧ (runSeq resp i fuel s).1.Nodup := by
  intro fuel
  induction fuel with
  | zero =>
    intro i s
    constructor
    · intro a ha
      simp [runSeq] at ha
    · simp [runSeq]
  | succ n ih =>
    intro i s
    rcases hnx : s.next with ⟨ox, s'⟩
    cases ox with
    | none =>
      have hrun : runSeq resp i (n + 1) s = ([], s') := by
        unfold runSeq
        rw [hnx]
      rw [hrun]
      constructor
      · intro a ha
        simp at ha
      · simp
    | some x =>
      obtain ⟨hfresh, hlo, hhi, hs'⟩ := LocalMinimum.next_some_spec hnx
      have hrun : runSeq resp i (n + 1) s
          = (x :: (runSeq resp (i + 1) n (s'.update (resp i))).1,
             (runSeq resp (i + 1) n (s'.update (resp i))).2) := by
        conv_lhs => rw [runSeq]
        rw [hnx]
      have hax : (s'.update (resp i)).allX = x :: s.allX := by
        rw [hs', LocalMinimum.update_allX _ rfl]
      have hib : (s'.update (resp i)).initialBounds = s.initialBounds := by
        rw [LocalMinimum.update_initialBounds, hs']
      obtain ⟨ihmem, ihnd⟩ := ih (i + 1) (s'.update (resp i))
      rw [hrun]
      constructor
      · intro a ha
        rcases List.mem_cons.mp ha with rfl | ha'
        · exact ⟨hfresh, hlo, hhi⟩
        · obtain ⟨hna, hla, hha⟩ := ihmem a ha'
          rw [hax] at hna
          rw [hib] at hla hha
          exact ⟨fun hc => hna (List.mem_cons_of_mem _ hc), hla, hha⟩
      · refine List.nodup_cons.mpr ⟨?_, ihnd⟩
        intro hc
        obtain ⟨hna, _, _⟩ := ihmem x hc
        rw [hax] at hna
        exact hna (List.mem_cons_self _ _)

/-- C6: across any single run (any state, comparator and sequence of
reported results), the sequence of candidates produced by `__next__`
contains no repeated integer. -/
theorem run_candidates_nodup {α : Type} (resp : Nat → Option α)
    (fuel i : Nat) (s : LocalMinimum α) : (runSeq resp i fuel s).1.Nodup :=
  (runSeq_trace_fresh resp fuel i s).2

/-- C7: for every valid construction (`start ≤ stop`) and every sequence
of reported results, the produce/consume loop produces at most
`stop - start` candidates (the number of integers in the interval),
however much fuel it is given. -/
theorem run_candidates_le_interval {α : Type} (resp : Nat → Option α)
    (fuel : Nat) (start stop ts : Int) (sf : α → Option α → Bool)
    (s : LocalMinimum α) (h : LocalMinimum.init start stop sf ts = .ok s) :
    (runSeq resp 0 fuel s).1.length ≤ (stop - start).toNat := by
  have hs : s = LocalMinimum.initState start stop sf ts := by
    unfold LocalMinimum.init at h
    split_ifs at h with hlt
    exact (Except.ok.inj h).symm
  obtain ⟨hmem, hnd⟩ := runSeq_trace_fresh resp fuel 0 s
  have hsub : (runSeq resp 0 fuel s).1.toFinset ⊆ Finset.Icc start (stop - 1) := by
    intro a ha
    rw [List.mem_toFinset] at ha
    obtain ⟨_, hla, hha⟩ := hmem a ha
    rw [hs] at hla hha
    simp only [LocalMinimum.initState] at hla hha
    exact Finset.mem_Icc.mpr ⟨hla, hha⟩
  have hcard : (runSeq resp 0 fuel s).1.toFinset.card
      = (runSeq resp 0 fuel s).1.length := List.toFinset_card_of_nodup hnd
  have hle := Finset.card_le_card hsub
  rw [hcard, Int.card_Icc] at hle
  omega

/-- Witness for the C7 theorem: a run over `[0, 5)` with constant
reported results produces at most 5 candidates. -/
theorem run_candidates_le_interval_witness :
    (runSeq (fun _ => some (0 : Int)) 0 10
        (LocalMinimum.initState 0 5 defaultSmallerf 1)).1.length
      ≤ ((5 : Int) - 0).toNat :=
  run_candidates_le_interval (fun _ => some 0) 10 0 5 1 defaultSmallerf
    (LocalMinimum.initState 0 5 defaultSmallerf 1) rfl

/-- Folding over a list zipped with its own image is folding over the
list: the worker pool's `starmap` result, consumed in task order, is the
same as evaluating each task in order. -/
theorem foldl_zip_self_map {T U V : Type} (ev : T → U) (g : V → T → U → V) :
    ∀ (ts : List T) (d : V),
      ((ts.zip (ts.map ev)).foldl (fun d' ty => g d' ty.1 ty.2) d)
        = ts.foldl (fun d' t => g d' t (ev t)) d := by
  intro ts
  induction ts with
  | nil => intro d; rfl
  | cons t ts ih =>
    intro d
    simp only [List.map_cons, List.zip_cons_cons, List.foldl_cons]
    exact ih _

/-- C9: for deterministic cost functions, `batch_estimate` with `jobs = 1`
and with any other worker count produces the identical result table. -/
theorem batch_estimate_jobs_agnostic {P R : Type} [DecidableEq P]
    (params : List P) (algorithm : List (String × (P → R))) (jobs : Nat) :
    batch_estimate params algorithm jobs = batch_estimate params algorithm 1 := by
  unfold batch_estimate
  by_cases hj : jobs = 1
  · rw [hj]
  · simp only [if_neg hj, eq_self_iff_true, if_true]
    congr 1
    exact foldl_zip_self_map (T := (P → R) × P × String) (U := R)
      (V := List ((String × P) × R)) (fun t => t.1 t.2.1)
      (fun d' t yv => dictInsert (t.2.2, t.2.1) yv d') _ []

/-- Best-so-far invariant of a run with the default comparator and a
total integer-valued cost function `g`: the stored best value is the
`g`-value of the stored best candidate, the best candidate has been
visited, and its value is minimal among all visited candidates; the
visited set after the run consists of the produced candidates plus the
initially visited ones. -/
theorem runLoop_int_best_min (g : Int → Int) :
    ∀ (fuel : Nat) (s : LocalMinimum Int),
      s.smallerf = defaultSmallerf →
      (∀ bx v, s.best = some (bx, v) →
        v = some (g bx) ∧ bx ∈ s.allX ∧ ∀ a ∈ s.allX, g bx ≤ g a) →
      (s.best = none → s.allX = []) →
      (∀ bx v, (runLoop (fun z => some (g z)) fuel s).2.best = some (bx, v) →
          v = some (g bx)
          ∧ bx ∈ (runLoop (fun z => some (g z)) fuel s).2.allX
          ∧ ∀ a ∈ (runLoop (fun z => some (g z)) fuel s).2.allX, g bx ≤ g a)
      ∧ ((runLoop (fun z => some (g z)) fuel s).2.best = none →
          (runLoop (fun z => some (g z)) fuel s).2.allX = [])
      ∧ (∀ a, a ∈ (runLoop (fun z => some (g z)) fuel s).2.allX ↔
            (a ∈ (runLoop (fun z => some (g z)) fuel s).1 ∨ a ∈ s.allX)) := by
  intro fuel
  induction fuel with
  | zero =>
    intro s hsf hinv hn
    refine ⟨hinv, hn, ?_⟩
    intro a
    simp [runLoop]
  | succ n ih =>
    intro s hsf hinv hn
    rcases hnx : s.next with ⟨ox, s'⟩
    cases ox with
    | none =>
      have hseq : s' = s := LocalMinimum.next_none_spec hnx
      have hrun : runLoop (fun z => some (g z)) (n + 1) s = ([], s') := by
        conv_lhs => rw [runLoop]
        rw [hnx]
      rw [hrun, hseq]
      refine ⟨hinv, hn, ?_⟩
      intro a
      simp
    | some xx =>
      obtain ⟨hfresh, hlo, hhi, hs'⟩ := LocalMinimum.next_some_spec hnx
      have hrun : runLoop (fun z => some (g z)) (n + 1) s
          = (xx :: (runLoop (fun z => some (g z)) n (s'.update (some (g xx)))).1,
             (runLoop (fun z => some (g z)) n (s'.update (some (g xx)))).2) := by
        conv_lhs => rw [runLoop]
        rw [hnx]
      have hsul : s'.lastX = some xx := by rw [hs']
      have hsf' : s'.smallerf = defaultSmallerf := by rw [hs']; exact hsf
      have hsux : (s'.update (some (g xx))).allX = xx :: s.allX := by
        rw [hs', LocalMinimum.update_allX _ rfl]
      have hsusf : (s'.update (some (g xx))).smallerf = defaultSmallerf := by
        rw [LocalMinimum.update_smallerf]
        exact hsf'
      have hsubinv : ∀ bx v, (s'.update (some (g xx))).best = some (bx, v) →
          v = some (g bx) ∧ bx ∈ (s'.update (some (g xx))).allX
          ∧ ∀ a ∈ (s'.update (some (g xx))).allX, g bx ≤ g a := by
        cases hbs : s.best with
        | none =>
          have hax0 : s.allX = [] := hn hbs
          have hbn : (s'.update (some (g xx))).best = some (xx, some (g xx)) :=
            LocalMinimum.update_best_of_none _ hsul (by rw [hs']; exact hbs)
          intro bx v hbv
          rw [hbn] at hbv
          simp only [Option.some.injEq, Prod.mk.injEq] at hbv
          obtain ⟨hbx, hv⟩ := hbv
          subst hbx
          subst hv
          refine ⟨rfl, ?_, ?_⟩
          · rw [hsux]
            exact List.mem_cons_self _ _
          · intro a ha
            rw [hsux, hax0] at ha
            rcases List.mem_cons.mp ha with rfl | ha'
            · exact le_refl _
            · exact absurd ha' (List.not_mem_nil a)
        | some p =>
          rcases p with ⟨bx0, bv0⟩
          obtain ⟨hv0, hbx0mem, hmin0⟩ := hinv bx0 bv0 hbs
          have hbest : (s'.update (some (g xx))).best =
              if (match (some (g xx) : Option Int) with
                  | some rr => s'.smallerf rr bv0
                  | none => false) = true
              then some (xx, some (g xx)) else some (bx0, bv0) :=
            LocalMinimum.update_best_of_some _ hsul (by rw [hs']; exact hbs)
          by_cases hle : g xx ≤ g bx0
          · have hcond : (match (some (g xx) : Option Int) with
                | some rr => s'.smallerf rr bv0
                | none => false) = true := by
              dsimp only
              rw [hsf', hv0]
              simp [defaultSmallerf, hle]
            have hbest' : (s'.update (some (g xx))).best = some (xx, some (g xx)) := by
              rw [hbest, if_pos hcond]
            intro bx v hbv
            rw [hbest'] at hbv
            simp only [Option.some.injEq, Prod.mk.injEq] at hbv
            obtain ⟨hbx, hv⟩ := hbv
            subst hbx
            subst hv
            refine ⟨rfl, ?_, ?_⟩
            · rw [hsux]
              exact List.mem_cons_self _ _
            · intro a ha
              rw [hsux] at ha
              rcases List.mem_cons.mp ha with rfl | ha'
              · exact le_refl _
              · exact le_trans hle (hmin0 a ha')
          · have hcond : (match (some (g xx) : Option Int) with
                | some rr => s'.smallerf rr bv0
                | none => false) = false := by
              dsimp only
              rw [hsf', hv0]
              simp [defaultSmallerf, hle]
            have hbest' : (s'.update (some (g xx))).best = some (bx0, bv0) := by
              rw [hbest, hcond]
              simp
            intro bx v hbv
            rw [hbest'] at hbv
            simp only [Option.some.injEq, Prod.mk.injEq] at hbv
            obtain ⟨hbx, hv⟩ := hbv
            subst hbx
            subst hv
            refine ⟨hv0, ?_, ?_⟩
            · rw [hsux]
              exact List.mem_cons_of_mem _ hbx0mem
            · intro a ha
              rw [hsux] at ha
              rcases List.mem_cons.mp ha with rfl | ha'
              · exact le_of_not_le hle
              · exact hmin0 a ha'
      have hsubn : (s'.update (some (g xx))).best = none →
          (s'.update (some (g xx))).allX = [] := by
        intro hbn
        exfalso
        cases hbs : s.best with
        | none =>
          rw [LocalMinimum.update_best_of_none _ hsul (by rw [hs']; exact hbs)] at hbn
          exact absurd hbn (by simp)
        | some p =>
          rcases p with ⟨bx0, bv0⟩
          rw [LocalMinimum.update_best_of_some _ hsul (by rw [hs']; exact hbs)] at hbn
          split_ifs at hbn
      obtain ⟨ih1, ih2, ih3⟩ := ih (s'.update (some (g xx))) hsusf hsubinv hsubn
      rw [hrun]
      refine ⟨ih1, ih2, ?_⟩
      intro a
      rw [show (xx :: (runLoop (fun z => some (g z)) n (s'.update (some (g xx)))).1,
            (runLoop (fun z => some (g z)) n (s'.update (some (g xx)))).2).2
          = (runLoop (fun z => some (g z)) n (s'.update (some (g xx)))).2 from rfl]
      rw [ih3 a, hsux]
      simp only [List.mem_cons]
      tauto

/-- C1 counterexample: `f(z) = z` is strictly unimodal (strictly
increasing, minimum value `0` at `z = 0`) over `[0, 4)`, yet driving
`local_minimum(0, 4)` to exhaustion proposes only `3, 2, 1` and ends
with best-so-far `(1, 1)` — the candidate `0` is never evaluated and the
final best value `1` does not attain the true minimum `0` of the
interval. -/
theorem unimodal_minimum_missed :
    StrictlyUnimodalOn (fun z => z) 0 4
    ∧ LocalMinimum.init 0 4 defaultSmallerf 1
        = .ok (LocalMinimum.initState 0 4 defaultSmallerf 1)
    ∧ (runLoop (fun z => some z) 10 (LocalMinimum.initState 0 4 defaultSmallerf 1)).1
        = [3, 2, 1]
    ∧ (runLoop (fun z => some z) 10 (LocalMinimum.initState 0 4 defaultSmallerf 1)).2.nextX
        = none
    ∧ (runLoop (fun z => some z) 10 (LocalMinimum.initState 0 4 defaultSmallerf 1)).2.best
        = some (1, some 1)
    ∧ ¬ (∀ z : Int, 0 ≤ z → z < 4 → (1 : Int) ≤ (fun z : Int => z) z) := by
  refine ⟨⟨0, le_refl 0, by decide, ?_, ?_⟩, rfl, rfl, rfl, rfl, ?_⟩
  · intro x y hx hxy hy
    exact absurd hy (by omega)
  · intro x y hx hxy hy
    exact hxy
  · intro hall
    exact absurd (hall 0 (by decide) (by decide)) (by decide)

/-- C1 amended: for a total integer-valued cost function and the default
comparator, the final best-so-far of a `local_minimum` run attains the
true minimum of `f` over the set of candidates actually evaluated (the
produced trace) — but not necessarily over all of `[start, stop)`, since
the search may stop without proposing every integer of the interval. -/
theorem best_attains_min_of_evaluated (g : Int → Int)
    (start stop : Int) (fuel : Nat) (s : LocalMinimum Int)
    (h : LocalMinimum.init start stop defaultSmallerf 1 = .ok s)
    (bx : Int) (v : Option Int)
    (hbest : (runLoop (fun z => some (g z)) fuel s).2.best = some (bx, v)) :
    v = some (g bx)
    ∧ bx ∈ (runLoop (fun z => some (g z)) fuel s).1
    ∧ ∀ a ∈ (runLoop (fun z => some (g z)) fuel s).1, g bx ≤ g a := by
  have hs : s = LocalMinimum.initState start stop defaultSmallerf 1 := by
    unfold LocalMinimum.init at h
    split_ifs at h with hlt
    exact (Except.ok.inj h).symm
  obtain ⟨hinv, _, hmem⟩ := runLoop_int_best_min g fuel s
    (by rw [hs]; rfl)
    (by rw [hs]; intro bx' v' hb'; exact absurd hb' (by simp [LocalMinimum.initState]))
    (by intro _; rw [hs]; rfl)
  obtain ⟨hv, hbxa, hmin⟩ := hinv bx v hbest
  refine ⟨hv, ?_, ?_⟩
  · rcases (hmem bx).mp hbxa with h1 | h2
    · exact h1
    · rw [hs] at h2
      exact absurd h2 (by simp [LocalMinimum.initState])
  · intro a ha
    exact hmin a ((hmem a).mpr (Or.inl ha))

/-- Witness for the amended C1 theorem: on `f(z) = z` over `[0, 4)` the
final best candidate `1` is among the evaluated candidates. -/
theorem best_attains_min_of_evaluated_witness :
    (1 : Int) ∈ (runLoop (fun z => some ((fun z : Int => z) z)) 10
        (LocalMinimum.initState 0 4 defaultSmallerf 1)).1 :=
  (best_attains_min_of_evaluated (fun z => z) 0 4 10
    (LocalMinimum.initState 0 4 defaultSmallerf 1) rfl 1 (some 1) rfl).2.1
